import Mathlib

/-!
# Verification of the research-assistant ingestion/retrieval pipeline

This file embeds the data model and operations of the taha-AI research
assistant (text chunking, fallback embedding, vector index, retrieval
orchestration, and the React frontend components) and proves the spec's
claims about them.

The repository ships the React frontend (`DocumentUpload.jsx`,
`DocumentList.jsx` and `ChatInterface.jsx` in the readme, `App.js`) but not
the Python backend services (`pdf_processor.py`, `embedding_service.py`,
`vector_db.py`, `llm_service.py` are referenced by the readme only).  The
backend components are therefore modelled from the spec, as flagged on each
definition; the frontend components are translated from the JSX sources.
-/

set_option maxRecDepth 4000

namespace TahaAI

/-! ## Vector index

Modelled from the spec: `vector_db.py` is absent from the repository.  The
spec (§3, §4.3) describes `VectorRecord` as the persisted unit — `id`,
`vector`, `metadata {document_id, chunk_text, title, upload_date}` — and the
index as an ordered store of such records answering nearest-neighbour
queries.  Insertion order is the list order. -/

structure Metadata where
  document_id : String
  chunk_text : String
  title : String
  upload_date : String
deriving DecidableEq, Repr

structure VectorRecord where
  id : String
  vector : List ℚ
  metadata : Metadata
deriving DecidableEq, Repr

/-- The in-process vector index: records in insertion order. -/
def VectorIndex := List VectorRecord

/-- Modelled from the spec (§4.3): `delete(document_id)` removes all records
for that document; no-op if absent. -/
def VectorIndex.delete (document_id : String) (index : List VectorRecord) :
    List VectorRecord :=
  index.filter fun r => r.metadata.document_id != document_id

/-- Modelled from the spec (§4.3): `insert(document_id, records)` first
removes any existing records for `document_id`, then appends the new set. -/
def VectorIndex.insert (document_id : String) (records : List VectorRecord)
    (index : List VectorRecord) : List VectorRecord :=
  (VectorIndex.delete document_id index) ++ records

/-- The records a given document currently owns in the index, in index
order. -/
def VectorIndex.recordsFor (document_id : String) (index : List VectorRecord) :
    List VectorRecord :=
  index.filter fun r => r.metadata.document_id == document_id

lemma recordsFor_append (d : String) (a b : List VectorRecord) :
    VectorIndex.recordsFor d (a ++ b) =
      VectorIndex.recordsFor d a ++ VectorIndex.recordsFor d b := by
  simp [VectorIndex.recordsFor]

lemma recordsFor_delete_self (d : String) (index : List VectorRecord) :
    VectorIndex.recordsFor d (VectorIndex.delete d index) = [] := by
  simp only [VectorIndex.recordsFor, VectorIndex.delete, List.filter_filter]
  rw [List.filter_eq_nil_iff]
  intro r _
  simp only [Bool.and_eq_true, beq_iff_eq, bne_iff_ne, ne_eq, not_and]
  intro h
  exact absurd h

lemma recordsFor_eq_self (d : String) (records : List VectorRecord)
    (h : ∀ r ∈ records, r.metadata.document_id = d) :
    VectorIndex.recordsFor d records = records := by
  rw [VectorIndex.recordsFor, List.filter_eq_self]
  intro r hr
  simp [h r hr]

lemma delete_of_all_eq (d : String) (records : List VectorRecord)
    (h : ∀ r ∈ records, r.metadata.document_id = d) :
    VectorIndex.delete d records = [] := by
  rw [VectorIndex.delete, List.filter_eq_nil_iff]
  intro r hr
  simp [h r hr]

lemma delete_delete (d : String) (index : List VectorRecord) :
    VectorIndex.delete d (VectorIndex.delete d index) =
      VectorIndex.delete d index := by
  simp only [VectorIndex.delete, List.filter_filter]
  apply List.filter_congr
  intro r _
  simp

lemma delete_append (d : String) (a b : List VectorRecord) :
    VectorIndex.delete d (a ++ b) =
      VectorIndex.delete d a ++ VectorIndex.delete d b := by
  simp [VectorIndex.delete]

lemma recordsFor_delete_ne (d e : String) (hne : d ≠ e)
    (index : List VectorRecord) :
    VectorIndex.recordsFor d (VectorIndex.delete e index) =
      VectorIndex.recordsFor d index := by
  simp only [VectorIndex.recordsFor, VectorIndex.delete, List.filter_filter]
  apply List.filter_congr
  intro r _
  by_cases h : r.metadata.document_id = d
  · simp [h, hne]
  · simp [h]

/-- **C1.** `VectorIndex.insert` is idempotent per document: re-inserting a
document first removes every record of the prior version, so afterwards the
index holds exactly the new record set for that document (no duplicates, no
stale records), re-inserting equals inserting once, and records of every
other document are untouched. -/
theorem insert_idempotent_per_document
    (index old new : List VectorRecord) (docId : String)
    (hold : ∀ r ∈ old, r.metadata.document_id = docId)
    (hnew : ∀ r ∈ new, r.metadata.document_id = docId) :
    VectorIndex.recordsFor docId
        (VectorIndex.insert docId new (VectorIndex.insert docId old index))
      = new
    ∧ VectorIndex.insert docId new (VectorIndex.insert docId old index)
      = VectorIndex.insert docId new index
    ∧ ∀ d, d ≠ docId →
        VectorIndex.recordsFor d
            (VectorIndex.insert docId new (VectorIndex.insert docId old index))
          = VectorIndex.recordsFor d index := by
  have hmain :
      VectorIndex.insert docId new (VectorIndex.insert docId old index)
        = VectorIndex.insert docId new index := by
    simp only [VectorIndex.insert, delete_append, delete_delete,
      delete_of_all_eq docId old hold, List.append_nil]
  refine ⟨?_, hmain, ?_⟩
  · rw [hmain]
    simp only [VectorIndex.insert, recordsFor_append,
      recordsFor_delete_self, recordsFor_eq_self docId new hnew,
      List.nil_append]
  · intro d hd
    rw [hmain]
    simp only [VectorIndex.insert, recordsFor_append]
    rw [recordsFor_delete_ne d docId hd]
    have : VectorIndex.recordsFor d new = [] := by
      rw [VectorIndex.recordsFor, List.filter_eq_nil_iff]
      intro r hr
      simp [hnew r hr]
      exact fun hc => hd hc.symm
    rw [this, List.append_nil]

/-- A concrete record for witnesses. -/
def sampleRecord (docId chunkId : String) (v : List ℚ) : VectorRecord :=
  { id := chunkId, vector := v
    metadata :=
      { document_id := docId, chunk_text := "text", title := "Paper"
        upload_date := "2025-01-01" } }

/-- Witness for C1 at a concrete index, old version and new version. -/
theorem insert_idempotent_per_document_witness :
    ((∀ r ∈ [sampleRecord "docA" "a0" [1, 0]], r.metadata.document_id = "docA")
      ∧ (∀ r ∈ [sampleRecord "docA" "a1" [0, 1],
                sampleRecord "docA" "a2" [1, 1]],
            r.metadata.document_id = "docA"))
    ∧ (VectorIndex.recordsFor "docA"
          (VectorIndex.insert "docA"
            [sampleRecord "docA" "a1" [0, 1], sampleRecord "docA" "a2" [1, 1]]
            (VectorIndex.insert "docA" [sampleRecord "docA" "a0" [1, 0]]
              [sampleRecord "docB" "b0" [2, 2]]))
        = [sampleRecord "docA" "a1" [0, 1], sampleRecord "docA" "a2" [1, 1]]
      ∧ VectorIndex.insert "docA"
            [sampleRecord "docA" "a1" [0, 1], sampleRecord "docA" "a2" [1, 1]]
            (VectorIndex.insert "docA" [sampleRecord "docA" "a0" [1, 0]]
              [sampleRecord "docB" "b0" [2, 2]])
        = VectorIndex.insert "docA"
            [sampleRecord "docA" "a1" [0, 1], sampleRecord "docA" "a2" [1, 1]]
            [sampleRecord "docB" "b0" [2, 2]]
      ∧ ∀ d, d ≠ "docA" →
          VectorIndex.recordsFor d
              (VectorIndex.insert "docA"
                [sampleRecord "docA" "a1" [0, 1],
                 sampleRecord "docA" "a2" [1, 1]]
                (VectorIndex.insert "docA" [sampleRecord "docA" "a0" [1, 0]]
                  [sampleRecord "docB" "b0" [2, 2]]))
            = VectorIndex.recordsFor d [sampleRecord "docB" "b0" [2, 2]]) :=
  ⟨⟨by decide, by decide⟩,
    insert_idempotent_per_document
      [sampleRecord "docB" "b0" [2, 2]]
      [sampleRecord "docA" "a0" [1, 0]]
      [sampleRecord "docA" "a1" [0, 1], sampleRecord "docA" "a2" [1, 1]]
      "docA" (by decide) (by decide)⟩

/-! ## Query ranking

Modelled from the spec (§4.3): `query(vector, top_k, optional filter)`
returns an ordered sequence of `QueryResult`, sorted by descending cosine
similarity with ties broken by insertion order (stable).  The scoring
function is a parameter `sim` (cosine similarity in the deployment; its
value is irrational in general, and the ranking contract holds for every
scoring function), so the theorems below quantify over `sim`. -/

structure QueryResult where
  chunk_id : String
  similarity_score : ℚ
  metadata : Metadata
deriving DecidableEq, Repr

/-- The ranking order used by `query`: higher score first, ties resolved by
insertion position (the position of the record in the index). -/
def rankRel (sim : List ℚ → List ℚ → ℚ) (q : List ℚ)
    (a b : ℕ × VectorRecord) : Prop :=
  sim q b.2.vector < sim q a.2.vector ∨
    (sim q a.2.vector = sim q b.2.vector ∧ a.1 ≤ b.1)

instance (sim : List ℚ → List ℚ → ℚ) (q : List ℚ) :
    DecidableRel (rankRel sim q) := fun a b => by
  unfold rankRel
  infer_instance

/-- Strict form of the ranking order: in a tie the earlier-inserted record
comes strictly first. -/
def strictRank (sim : List ℚ → List ℚ → ℚ) (q : List ℚ)
    (a b : ℕ × VectorRecord) : Prop :=
  sim q b.2.vector < sim q a.2.vector ∨
    (sim q a.2.vector = sim q b.2.vector ∧ a.1 < b.1)

instance (sim : List ℚ → List ℚ → ℚ) (q : List ℚ) :
    IsTotal (ℕ × VectorRecord) (rankRel sim q) := by
  constructor
  intro a b
  rcases lt_trichotomy (sim q a.2.vector) (sim q b.2.vector) with h | h | h
  · exact Or.inr (Or.inl h)
  · rcases Nat.le_total a.1 b.1 with hp | hp
    · exact Or.inl (Or.inr ⟨h, hp⟩)
    · exact Or.inr (Or.inr ⟨h.symm, hp⟩)
  · exact Or.inl (Or.inl h)

instance (sim : List ℚ → List ℚ → ℚ) (q : List ℚ) :
    IsTrans (ℕ × VectorRecord) (rankRel sim q) := by
  constructor
  intro a b c hab hbc
  rcases hab with hab | ⟨hab, pab⟩ <;> rcases hbc with hbc | ⟨hbc, pbc⟩
  · exact Or.inl (hbc.trans hab)
  · exact Or.inl (hbc ▸ hab)
  · exact Or.inl (lt_of_lt_of_le hbc (le_of_eq hab.symm))
  · exact Or.inr ⟨hab.trans hbc, pab.trans pbc⟩

/-- Modelled from the spec (§4.3): rank the records of the index (tagged
with their insertion positions) by descending similarity, stably, and keep
the best `top_k`. -/
def VectorIndex.queryRanked (sim : List ℚ → List ℚ → ℚ) (q : List ℚ)
    (top_k : ℕ) (index : List VectorRecord) : List (ℕ × VectorRecord) :=
  (List.insertionSort (rankRel sim q) index.enum).take top_k

/-- Modelled from the spec (§4.3, §3): `query` returns the ranked records as
`QueryResult` values (chunk id, similarity score, metadata snapshot). -/
def VectorIndex.query (sim : List ℚ → List ℚ → ℚ) (q : List ℚ)
    (top_k : ℕ) (index : List VectorRecord) : List QueryResult :=
  (VectorIndex.queryRanked sim q top_k index).map fun pr =>
    { chunk_id := pr.2.id, similarity_score := sim q pr.2.vector
      metadata := pr.2.metadata }

lemma enum_fst_injOn (l : List VectorRecord) :
    ∀ a ∈ l.enum, ∀ b ∈ l.enum, a.1 = b.1 → a = b := by
  intro a ha b hb hfst
  exact List.inj_on_of_nodup_map (List.nodup_enum_map_fst l) ha hb hfst

lemma queryRanked_pairwise_strict (sim : List ℚ → List ℚ → ℚ) (q : List ℚ)
    (top_k : ℕ) (index : List VectorRecord) :
    List.Pairwise (strictRank sim q)
      (VectorIndex.queryRanked sim q top_k index) := by
  have hsorted : List.Pairwise (rankRel sim q)
      (List.insertionSort (rankRel sim q) index.enum) :=
    List.sorted_insertionSort (rankRel sim q) index.enum
  have hperm : List.Perm (List.insertionSort (rankRel sim q) index.enum)
      index.enum :=
    List.perm_insertionSort (rankRel sim q) index.enum
  have hnd : (List.insertionSort (rankRel sim q) index.enum).Nodup := by
    refine hperm.nodup_iff.mpr ?_
    exact (List.nodup_enum_map_fst index).of_map Prod.fst
  have hboth : List.Pairwise
      (fun a b : ℕ × VectorRecord => rankRel sim q a b ∧ a ≠ b)
      (List.insertionSort (rankRel sim q) index.enum) := hsorted.and hnd
  have hstrict : List.Pairwise (strictRank sim q)
      (List.insertionSort (rankRel sim q) index.enum) := by
    refine hboth.imp_of_mem ?_
    intro a b ha hb hab
    rcases hab with ⟨hr | ⟨heq, hle⟩, hne⟩
    · exact Or.inl hr
    · refine Or.inr ⟨heq, lt_of_le_of_ne hle ?_⟩
      intro hfst
      exact hne (enum_fst_injOn index a (hperm.mem_iff.mp ha) b
        (hperm.mem_iff.mp hb) hfst)
  exact hstrict.sublist (List.take_sublist top_k _)

/-- **C2.** For every scoring function, query vector, `top_k` and index
state, `VectorIndex.query` returns results sorted by non-increasing
similarity score, and among the ranked records any two with equal score
appear in strict insertion order (stable tie-break); `query` is exactly the
`QueryResult` projection of the ranked records. -/
theorem query_sorted_and_stable (sim : List ℚ → List ℚ → ℚ) (q : List ℚ)
    (top_k : ℕ) (index : List VectorRecord) :
    List.Pairwise
        (fun a b : QueryResult => b.similarity_score ≤ a.similarity_score)
        (VectorIndex.query sim q top_k index)
    ∧ List.Pairwise (strictRank sim q)
        (VectorIndex.queryRanked sim q top_k index)
    ∧ VectorIndex.query sim q top_k index
      = (VectorIndex.queryRanked sim q top_k index).map fun pr =>
          { chunk_id := pr.2.id, similarity_score := sim q pr.2.vector
            metadata := pr.2.metadata } := by
  have hstrict := queryRanked_pairwise_strict sim q top_k index
  refine ⟨?_, hstrict, rfl⟩
  rw [VectorIndex.query, List.pairwise_map]
  refine hstrict.imp ?_
  intro a b hab
  rcases hab with h | ⟨h, _⟩
  · exact le_of_lt h
  · exact le_of_eq h.symm

/-! ## Text chunking

Modelled from the spec: `pdf_processor.py` (TextChunker) is absent from the
repository.  Per §4.1 and §8, windows start at
`position * (chunk_size - overlap)`, each window takes `chunk_size`
characters, only the final window may be shorter, every character of the
extracted text appears in at least one chunk, and the number of chunks is
governed by the spec's count formula — which forces chunking to stop with
the first window that reaches the end of the text (this also realises the
spec's 6-chunk scenario for a 5000-character text).  Extraction itself
(raw bytes to text, `ExtractionFailed`) is outside the claims, so the model
takes the extracted text.  The `fuel` argument bounds the iteration count;
`text.length` is always sufficient because each step advances the window
start by `chunk_size - overlap ≥ 1`. -/

def chunkFrom (text : List Char) (chunk_size overlap : ℕ) :
    ℕ → ℕ → List (List Char)
  | _, 0 => []
  | start, fuel + 1 =>
    if start < text.length then
      if text.length ≤ start + chunk_size then
        [(text.drop start).take chunk_size]
      else
        ((text.drop start).take chunk_size) ::
          chunkFrom text chunk_size overlap
            (start + (chunk_size - overlap)) fuel
    else []

/-- Modelled from the spec (§4.1): the chunking stage of
`extract_and_chunk`, applied to the extracted text. -/
def extract_and_chunk (text : List Char) (chunk_size overlap : ℕ) :
    List (List Char) :=
  chunkFrom text chunk_size overlap 0 text.length

/-- The chunk-count formula exactly as the spec states it:
`ceil((L - O) / (C - O))`. -/
def specChunkCount (L C O : ℕ) : ℤ :=
  ⌈((L : ℚ) - (O : ℚ)) / ((C : ℚ) - (O : ℚ))⌉

lemma chunkFrom_getElem (text : List Char) (C O : ℕ) (hOC : O < C) :
    ∀ fuel start, text.length - start ≤ fuel →
      ∀ p, p < (chunkFrom text C O start fuel).length →
        (chunkFrom text C O start fuel)[p]?
          = some ((text.drop (start + p * (C - O))).take C) := by
  intro fuel
  induction fuel with
  | zero =>
    intro start _ p hp
    simp [chunkFrom] at hp
  | succ n ih =>
    intro start hf p hp
    by_cases h1 : start < text.length
    · by_cases h2 : text.length ≤ start + C
      · have he : chunkFrom text C O start (n + 1)
            = [(text.drop start).take C] := by
          simp [chunkFrom, h1, h2]
        rw [he] at hp ⊢
        simp only [List.length_singleton] at hp
        have hp0 : p = 0 := by omega
        subst hp0
        simp
      · have he : chunkFrom text C O start (n + 1)
            = ((text.drop start).take C) ::
                chunkFrom text C O (start + (C - O)) n := by
          simp [chunkFrom, h1, h2]
        rw [he] at hp ⊢
        cases p with
        | zero => simp
        | succ p =>
          rw [List.getElem?_cons_succ]
          have hp' : p < (chunkFrom text C O (start + (C - O)) n).length := by
            simp only [List.length_cons] at hp
            omega
          rw [ih (start + (C - O)) (by omega) p hp']
          have harith : start + (C - O) + p * (C - O)
              = start + (p + 1) * (C - O) := by ring
          rw [harith]
    · simp [chunkFrom, h1] at hp

lemma chunkFrom_length_spec (text : List Char) (C O : ℕ) (hOC : O < C) :
    ∀ fuel start, text.length - start ≤ fuel → start < text.length →
      ∃ m, (chunkFrom text C O start fuel).length = m + 1
        ∧ text.length ≤ start + m * (C - O) + C
        ∧ ∀ j, m = j + 1 → start + j * (C - O) + C < text.length := by
  intro fuel
  induction fuel with
  | zero =>
    intro start hf h1
    omega
  | succ n ih =>
    intro start hf h1
    by_cases h2 : text.length ≤ start + C
    · refine ⟨0, ?_, by simpa using h2, ?_⟩
      · simp [chunkFrom, h1, h2]
      · intro j hj
        exact absurd hj (by omega)
    · obtain ⟨mm, hm, hub, hmin⟩ :=
        ih (start + (C - O)) (by omega) (by omega)
      refine ⟨mm + 1, ?_, ?_, ?_⟩
      · simp [chunkFrom, h1, h2, hm]
      · have harith : start + (mm + 1) * (C - O) + C
            = start + (C - O) + mm * (C - O) + C := by ring
        rw [harith]
        exact hub
      · intro j hj
        have hjm : j = mm := by omega
        subst hjm
        cases j with
        | zero => simpa using h2
        | succ k =>
          have hk := hmin k rfl
          have harith : start + (k + 1) * (C - O) + C
              = start + (C - O) + k * (C - O) + C := by ring
          rw [harith]
          exact hk

lemma chunkFrom_before_last (text : List Char) (C O : ℕ) (hOC : O < C) :
    ∀ fuel start p, text.length - start ≤ fuel →
      p + 1 < (chunkFrom text C O start fuel).length →
      start + p * (C - O) + C < text.length := by
  intro fuel
  induction fuel with
  | zero =>
    intro start p _ hp
    simp [chunkFrom] at hp
  | succ n ih =>
    intro start p hf hp
    by_cases h1 : start < text.length
    · by_cases h2 : text.length ≤ start + C
      · have he : chunkFrom text C O start (n + 1)
            = [(text.drop start).take C] := by
          simp [chunkFrom, h1, h2]
        rw [he] at hp
        simp at hp
      · have he : chunkFrom text C O start (n + 1)
            = ((text.drop start).take C) ::
                chunkFrom text C O (start + (C - O)) n := by
          simp [chunkFrom, h1, h2]
        rw [he] at hp
        cases p with
        | zero => simpa using h2
        | succ p =>
          have hp' : p + 1 < (chunkFrom text C O (start + (C - O)) n).length := by
            simp only [List.length_cons] at hp
            omega
          have hrec := ih (start + (C - O)) p (by omega) hp'
          have harith : start + (p + 1) * (C - O) + C
              = start + (C - O) + p * (C - O) + C := by ring
          rw [harith]
          exact hrec
    · simp [chunkFrom, h1] at hp

lemma chunkFrom_covers (text : List Char) (C O : ℕ) (hOC : O < C) :
    ∀ fuel start i, text.length - start ≤ fuel → start ≤ i →
      i < text.length →
      ∃ p chunk, (chunkFrom text C O start fuel)[p]? = some chunk
        ∧ start + p * (C - O) ≤ i
        ∧ i < start + p * (C - O) + chunk.length := by
  intro fuel
  induction fuel with
  | zero =>
    intro start i hf hsi hil
    omega
  | succ n ih =>
    intro start i hf hsi hil
    have h1 : start < text.length := by omega
    by_cases h2 : text.length ≤ start + C
    · have he : chunkFrom text C O start (n + 1)
          = [(text.drop start).take C] := by
        simp [chunkFrom, h1, h2]
      refine ⟨0, (text.drop start).take C, by simp [he], by omega, ?_⟩
      have hlen : ((text.drop start).take C).length
          = text.length - start := by
        simp
        omega
      rw [hlen]
      omega
    · have he : chunkFrom text C O start (n + 1)
          = ((text.drop start).take C) ::
              chunkFrom text C O (start + (C - O)) n := by
        simp [chunkFrom, h1, h2]
      by_cases hi : i < start + C
      · refine ⟨0, (text.drop start).take C, by simp [he], by omega, ?_⟩
        have hlen : ((text.drop start).take C).length = C := by
          simp
          omega
        rw [hlen]
        omega
      · obtain ⟨p, chunk, hpc, hlo, hhi⟩ :=
          ih (start + (C - O)) i (by omega) (by omega) hil
        refine ⟨p + 1, chunk, ?_, ?_, ?_⟩
        · rw [he, List.getElem?_cons_succ]
          exact hpc
        · calc start + (p + 1) * (C - O)
              = start + (C - O) + p * (C - O) := by ring
            _ ≤ i := hlo
        · calc i
              < start + (C - O) + p * (C - O) + chunk.length := hhi
            _ = start + (p + 1) * (C - O) + chunk.length := by ring

lemma extract_and_chunk_count (text : List Char) (C O : ℕ) (hOC : O < C)
    (hOL : O < text.length) :
    ((extract_and_chunk text C O).length : ℤ)
      = specChunkCount text.length C O := by
  obtain ⟨m, hm, hub, hmin⟩ :=
    chunkFrom_length_spec text C O hOC text.length 0 (by omega) (by omega)
  have hm' : (extract_and_chunk text C O).length = m + 1 := hm
  have hstep : (0 : ℚ) < (C : ℚ) - (O : ℚ) := by
    have hq : (O : ℚ) < (C : ℚ) := by exact_mod_cast hOC
    linarith
  have hCq : (C : ℚ) - (O : ℚ) = ((C - O : ℕ) : ℚ) := by
    rw [Nat.cast_sub hOC.le]
  have hLq : (text.length : ℚ) - (O : ℚ) = ((text.length - O : ℕ) : ℚ) := by
    rw [Nat.cast_sub hOL.le]
  rw [hm', specChunkCount, eq_comm, Int.ceil_eq_iff]
  constructor
  · -- lower bound: m * (C - O) < L - O in ℕ, hence in ℚ
    have hlow : m * (C - O) < text.length - O := by
      cases m with
      | zero => simpa using hOL
      | succ k =>
        have hk := hmin k rfl
        have harith : 0 + k * (C - O) + C = (k + 1) * (C - O) + O := by
          have hco : C = (C - O) + O := by omega
          calc 0 + k * (C - O) + C = k * (C - O) + ((C - O) + O) := by
                rw [← hco]
                ring
            _ = (k + 1) * (C - O) + O := by ring
        rw [harith] at hk
        omega
    have hlowq : ((m * (C - O) : ℕ) : ℚ) < ((text.length - O : ℕ) : ℚ) := by
      exact_mod_cast hlow
    push_cast at hlowq
    rw [lt_div_iff₀ hstep]
    rw [hCq, hLq]
    push_cast
    linarith
  · -- upper bound: L - O ≤ (m + 1) * (C - O) in ℕ, hence in ℚ
    have hup : text.length - O ≤ (m + 1) * (C - O) := by
      have harith : 0 + m * (C - O) + C = (m + 1) * (C - O) + O := by
        have hco : C = (C - O) + O := by omega
        calc 0 + m * (C - O) + C = m * (C - O) + ((C - O) + O) := by
              rw [← hco]
              ring
          _ = (m + 1) * (C - O) + O := by ring
      rw [harith] at hub
      omega
    have hupq : ((text.length - O : ℕ) : ℚ) ≤ (((m + 1) * (C - O) : ℕ) : ℚ) := by
      exact_mod_cast hup
    push_cast at hupq
    rw [div_le_iff₀ hstep]
    rw [hCq, hLq]
    push_cast
    linarith

/-- **C3 (amended).** For every extracted text of length `L > O` and chunk
parameters `O < C`: the chunker produces exactly `ceil((L-O)/(C-O))` chunks;
the chunk at ordinal position `p` is the `C`-character window starting at
offset `p * (C - O)`; every chunk except possibly the final one has length
exactly `C` and no chunk is longer than `C`; and every character position in
`[0, L)` is covered by at least one chunk.  (The claim's count formula fails
for texts with `0 < L ≤ O` — see the counterexample — so the count clause is
restricted to `O < L`.) -/
theorem extract_and_chunk_spec (text : List Char) (C O : ℕ)
    (hOC : O < C) (hOL : O < text.length) :
    ((extract_and_chunk text C O).length : ℤ)
      = specChunkCount text.length C O
    ∧ (∀ p, p < (extract_and_chunk text C O).length →
        (extract_and_chunk text C O)[p]?
          = some ((text.drop (p * (C - O))).take C))
    ∧ (∀ p chunk, (extract_and_chunk text C O)[p]? = some chunk →
        (p + 1 < (extract_and_chunk text C O).length → chunk.length = C)
        ∧ chunk.length ≤ C)
    ∧ ∀ i, i < text.length → ∃ p chunk,
        (extract_and_chunk text C O)[p]? = some chunk
        ∧ p * (C - O) ≤ i ∧ i < p * (C - O) + chunk.length := by
  have hpos : ∀ p, p < (extract_and_chunk text C O).length →
      (extract_and_chunk text C O)[p]?
        = some ((text.drop (p * (C - O))).take C) := by
    intro p hp
    have hg := chunkFrom_getElem text C O hOC text.length 0 (by omega) p hp
    simpa using hg
  refine ⟨extract_and_chunk_count text C O hOC hOL, hpos, ?_, ?_⟩
  · intro p chunk hpc
    have hp : p < (extract_and_chunk text C O).length := by
      by_contra hge
      rw [List.getElem?_eq_none (by omega)] at hpc
      exact Option.noConfusion hpc
    have hchunk : chunk = (text.drop (p * (C - O))).take C := by
      have h2 := hpos p hp
      rw [hpc] at h2
      exact Option.some.inj h2
    subst hchunk
    constructor
    · intro hlast
      have hfull := chunkFrom_before_last text C O hOC text.length 0 p
        (by omega) hlast
      simp only [Nat.zero_add] at hfull
      simp only [List.length_take, List.length_drop]
      omega
    · simp only [List.length_take, List.length_drop]
      omega
  · intro i hi
    obtain ⟨p, chunk, hpc, hlo, hhi⟩ :=
      chunkFrom_covers text C O hOC text.length 0 i (by omega) (by omega) hi
    exact ⟨p, chunk, hpc, by omega, by omega⟩

/-- Witness for C3 at the 5-character text with chunk size 2, overlap 1. -/
theorem extract_and_chunk_spec_witness :
    ((1 : ℕ) < 2 ∧ (1 : ℕ) < (String.toList "abcde").length)
    ∧ (((extract_and_chunk (String.toList "abcde") 2 1).length : ℤ)
        = specChunkCount (String.toList "abcde").length 2 1
      ∧ (∀ p, p < (extract_and_chunk (String.toList "abcde") 2 1).length →
          (extract_and_chunk (String.toList "abcde") 2 1)[p]?
            = some (((String.toList "abcde").drop (p * (2 - 1))).take 2))
      ∧ (∀ p chunk,
          (extract_and_chunk (String.toList "abcde") 2 1)[p]? = some chunk →
          (p + 1 < (extract_and_chunk (String.toList "abcde") 2 1).length →
            chunk.length = 2)
          ∧ chunk.length ≤ 2)
      ∧ ∀ i, i < (String.toList "abcde").length → ∃ p chunk,
          (extract_and_chunk (String.toList "abcde") 2 1)[p]? = some chunk
          ∧ p * (2 - 1) ≤ i ∧ i < p * (2 - 1) + chunk.length) :=
  ⟨⟨by decide, by decide⟩,
    extract_and_chunk_spec (String.toList "abcde") 2 1 (by decide) (by decide)⟩

/-- **C3 counterexample.** On the one-character text with chunk size 2 and
overlap 1 the chunker emits one chunk (forced by the full-coverage clause),
but the claimed formula `ceil((L-O)/(C-O))` yields 0. -/
theorem extract_and_chunk_count_counterexample :
    ¬ (((extract_and_chunk (String.toList "a") 2 1).length : ℤ)
        = specChunkCount (String.toList "a").length 2 1) := by
  intro heq
  have h1 : (extract_and_chunk (String.toList "a") 2 1).length = 1 := by
    decide
  have h2 : specChunkCount (String.toList "a").length 2 1 = 0 := by
    have hL : (String.toList "a").length = 1 := by decide
    rw [specChunkCount, hL]
    norm_num
  rw [h1, h2] at heq
  norm_num at heq

lemma chunk_lengths_5000 (text : List Char) (h : text.length = 5000) :
    (extract_and_chunk text 1000 200).length = 6
    ∧ (extract_and_chunk text 1000 200).map List.length
      = [1000, 1000, 1000, 1000, 1000, 1000] := by
  have hOC : (200 : ℕ) < 1000 := by norm_num
  obtain ⟨m, hm, hub, hmin⟩ :=
    chunkFrom_length_spec text 1000 200 hOC text.length 0 (by omega) (by omega)
  have hm5 : m = 5 := by
    cases m with
    | zero =>
      rw [h] at hub
      omega
    | succ k =>
      have hk := hmin k rfl
      rw [h] at hub hk
      omega
  subst hm5
  have hlen : (extract_and_chunk text 1000 200).length = 6 := hm
  refine ⟨hlen, ?_⟩
  apply List.ext_getElem
  · simp [hlen]
  · intro i h1 h2
    have hi : i < (extract_and_chunk text 1000 200).length := by
      rw [List.length_map] at h1
      exact h1
    rw [List.getElem_map]
    have hchunk := chunkFrom_getElem text 1000 200 hOC text.length 0
      (by omega) i hi
    have hsome := List.getElem?_eq_getElem hi
    have hgetelem : (extract_and_chunk text 1000 200)[i]
        = (text.drop (0 + i * (1000 - 200))).take 1000 :=
      Option.some.inj (hsome.symm.trans hchunk)
    rw [hgetelem]
    have hi6 : i < 6 := by
      rw [hlen] at hi
      exact hi
    interval_cases i <;> simp [h]

/-- **C4 (amended).** Chunking a 5000-character extracted text with
`chunk_size = 1000` and `overlap = 200` produces exactly 6 chunks, every one
of which — including the last, whose window starts at offset 4000 — has
length 1000 (not 800 as the scenario in the spec states). -/
theorem chunk_scenario_5000 (text : List Char) (h : text.length = 5000) :
    (extract_and_chunk text 1000 200).length = 6
    ∧ (extract_and_chunk text 1000 200).map List.length
      = [1000, 1000, 1000, 1000, 1000, 1000] :=
  chunk_lengths_5000 text h

/-- Witness for C4 at an explicit 5000-character text. -/
theorem chunk_scenario_5000_witness :
    (List.replicate 5000 'a').length = 5000
    ∧ ((extract_and_chunk (List.replicate 5000 'a') 1000 200).length = 6
      ∧ (extract_and_chunk (List.replicate 5000 'a') 1000 200).map List.length
        = [1000, 1000, 1000, 1000, 1000, 1000]) :=
  ⟨List.length_replicate 5000 'a',
    chunk_scenario_5000 (List.replicate 5000 'a') (List.length_replicate 5000 'a')⟩

/-- **C4 counterexample.** On an explicit 5000-character text the chunk
lengths are six times 1000 — the last chunk has length 1000, not 800 as the
claim states. -/
theorem chunk_scenario_5000_counterexample :
    ¬ ((extract_and_chunk (List.replicate 5000 'a') 1000 200).map List.length
        = [1000, 1000, 1000, 1000, 1000, 800]) := by
  intro hcl
  have hc := (chunk_lengths_5000 (List.replicate 5000 'a')
    (List.length_replicate 5000 'a')).2
  rw [hc] at hcl
  exact absurd hcl (by decide)

/-! ## Fallback embedding

Modelled from the spec: `embedding_service.py` is absent from the
repository.  Per §4.2 the fallback is a deterministic local vectorizer — a
statistical term-frequency model fitted over the currently known corpus.
The fitted state carries the corpus it was fitted on and the fitted
vocabulary (each term with its weight); vectorizing a text tokenizes it on
spaces and maps each vocabulary term to its frequency in the text times the
fitted weight. -/

structure FitState where
  corpus : List (List Char)
  vocab : List (List Char × ℚ)

def tokenize (text : List Char) : List (List Char) :=
  (text.splitOn ' ').filter fun t => !t.isEmpty

def termFrequency (term : List Char) (text : List Char) : ℕ :=
  (tokenize text).count term

def fallbackVectorize (st : FitState) (text : List Char) : List ℚ :=
  st.vocab.map fun p => (termFrequency p.1 text : ℚ) * p.2

/-- **C5.** The fallback embedder is deterministic: two runs on the same
text under the same fitted vocabulary — even held inside different fitted
states — produce identical vectors. -/
theorem fallback_vectorizer_deterministic (st st' : FitState)
    (text : List Char) (h : st.vocab = st'.vocab) :
    fallbackVectorize st text = fallbackVectorize st' text
    ∧ fallbackVectorize st text = fallbackVectorize st text := by
  refine ⟨?_, rfl⟩
  rw [fallbackVectorize, fallbackVectorize, h]

/-- Witness for C5 at a concrete fitted vocabulary and text. -/
theorem fallback_vectorizer_deterministic_witness :
    (FitState.mk [String.toList "alpha beta"]
        [(String.toList "beta", 2)]).vocab
      = (FitState.mk [] [(String.toList "beta", 2)]).vocab
    ∧ (fallbackVectorize
          (FitState.mk [String.toList "alpha beta"]
            [(String.toList "beta", 2)])
          (String.toList "beta beta")
        = fallbackVectorize (FitState.mk [] [(String.toList "beta", 2)])
            (String.toList "beta beta")
      ∧ fallbackVectorize
          (FitState.mk [String.toList "alpha beta"]
            [(String.toList "beta", 2)])
          (String.toList "beta beta")
        = fallbackVectorize
            (FitState.mk [String.toList "alpha beta"]
              [(String.toList "beta", 2)])
            (String.toList "beta beta")) :=
  ⟨rfl, fallback_vectorizer_deterministic _ _ (String.toList "beta beta") rfl⟩

/-! ## Retrieval orchestration and answer synthesis

Modelled from the spec: the orchestrator and synthesizer are absent from
the repository.  Per §4.4, `retrieve` embeds the question (abstracted as
`qembed`), queries the index for `top_k` candidates, deduplicates by
`chunk_id`, and assembles a context string in score order, dropping any
chunk that would overflow the budget; per §4.5, when no chunks were
retrieved the answer is a fixed no-relevant-information answer with empty
sources, otherwise the language model (abstracted as `llm`) is invoked. -/

def dedupAux : List QueryResult → List String → List QueryResult
  | [], _ => []
  | r :: rest, seen =>
    if r.chunk_id ∈ seen then dedupAux rest seen
    else r :: dedupAux rest (r.chunk_id :: seen)

def dedupByChunkId (results : List QueryResult) : List QueryResult :=
  dedupAux results []

def assembleContext (max_context_chars : ℕ) (results : List QueryResult) :
    String :=
  results.foldl
    (fun ctx r =>
      if ctx.length + r.metadata.chunk_text.length ≤ max_context_chars then
        ctx ++ r.metadata.chunk_text
      else ctx)
    ""

def RetrievalOrchestrator.retrieve (sim : List ℚ → List ℚ → ℚ)
    (qembed : String → List ℚ) (index : List VectorRecord)
    (question : String) (top_k max_context_chars : ℕ) :
    List QueryResult × String :=
  let results :=
    dedupByChunkId (VectorIndex.query sim (qembed question) top_k index)
  (results, assembleContext max_context_chars results)

structure Answer where
  text : String
  sources : List (String × String × ℚ)
  degraded : Bool
deriving DecidableEq, Repr

def noRelevantInformation : String := "No relevant information found"

def answerQuestion (sim : List ℚ → List ℚ → ℚ) (qembed : String → List ℚ)
    (llm : String → String → String) (index : List VectorRecord)
    (question : String) (top_k max_context_chars : ℕ) : Answer :=
  let res := RetrievalOrchestrator.retrieve sim qembed index question
    top_k max_context_chars
  if res.1.isEmpty then
    { text := noRelevantInformation, sources := [], degraded := false }
  else
    { text := llm question res.2
      sources := res.1.map fun r =>
        (r.metadata.title, r.metadata.chunk_text, r.similarity_score)
      degraded := false }

/-- **C6.** Retrieval against an empty corpus — or with an empty top-k — is
not an error: `retrieve` returns an empty result sequence and an empty
context string, and the end-to-end answer is the fixed
no-relevant-information answer with empty sources. -/
theorem retrieve_empty_corpus_no_error (sim : List ℚ → List ℚ → ℚ)
    (qembed : String → List ℚ) (llm : String → String → String)
    (question : String) (top_k max_context_chars : ℕ)
    (index : List VectorRecord) :
    RetrievalOrchestrator.retrieve sim qembed [] question top_k
        max_context_chars = ([], "")
    ∧ answerQuestion sim qembed llm [] question top_k max_context_chars
      = { text := noRelevantInformation, sources := [], degraded := false }
    ∧ RetrievalOrchestrator.retrieve sim qembed index question 0
        max_context_chars = ([], "")
    ∧ answerQuestion sim qembed llm index question 0 max_context_chars
      = { text := noRelevantInformation, sources := [], degraded := false } := by
  have hqnil : VectorIndex.query sim (qembed question) top_k [] = [] := by
    simp [VectorIndex.query, VectorIndex.queryRanked]
  have hqzero : VectorIndex.query sim (qembed question) 0 index = [] := by
    simp [VectorIndex.query, VectorIndex.queryRanked]
  have hr1 : RetrievalOrchestrator.retrieve sim qembed [] question top_k
      max_context_chars = ([], "") := by
    simp [RetrievalOrchestrator.retrieve, hqnil, dedupByChunkId, dedupAux,
      assembleContext]
  have hr2 : RetrievalOrchestrator.retrieve sim qembed index question 0
      max_context_chars = ([], "") := by
    simp [RetrievalOrchestrator.retrieve, hqzero, dedupByChunkId, dedupAux,
      assembleContext]
  refine ⟨hr1, ?_, hr2, ?_⟩
  · simp [answerQuestion, hr1]
  · simp [answerQuestion, hr2]

/-! ## Frontend components

Translated from the JSX sources shipped with the repository:
`frontend/src/components/DocumentUpload.jsx`, plus `DocumentList.jsx` and
`ChatInterface.jsx` as listed in the readme.  Response bodies are modelled
as JSON values; field access, JS truthiness (`x || fallback`) and
template-literal stringification follow JS semantics. -/

inductive JVal
  | null
  | str (s : String)
  | num (n : ℚ)
  | arr (items : List JVal)
  | obj (fields : List (String × JVal))

/-- JS property access `body.key`: `null` stands for `undefined`. -/
def JVal.get (j : JVal) (key : String) : JVal :=
  match j with
  | .obj fields =>
    match fields.find? (fun f => f.1 == key) with
    | some f => f.2
    | none => .null
  | _ => .null

def JVal.keys : JVal → List String
  | .obj fields => fields.map Prod.fst
  | _ => []

/-- JS truthiness: empty strings, zero and `undefined` are falsy; arrays and
objects are truthy. -/
def JVal.truthy : JVal → Bool
  | .null => false
  | .str s => !(s == "")
  | .num n => !(n == 0)
  | .arr _ => true
  | .obj _ => true

/-- JS template-literal stringification of a field value. -/
def JVal.display : JVal → String
  | .null => "undefined"
  | .str s => s
  | .num n => toString n
  | .arr _ => "[array]"
  | .obj _ => "[object Object]"

def jsArrItems : JVal → List JVal
  | .arr items => items
  | _ => []

/-! ### DocumentUpload.jsx -/

structure UploadState where
  file : Option String
  status : String
deriving DecidableEq, Repr

/-- The observable outcome of the `fetch` in `onUpload`: an HTTP response
with `res.ok` true or false and a JSON body, or a thrown error. -/
inductive FetchOutcome
  | ok (body : JVal)
  | httpError (body : JVal)
  | networkFailure

/-- From `DocumentUpload.jsx` (`onUpload`): with no file selected the
handler returns immediately; otherwise it POSTs the file and sets the final
status from the response (`data.title`/`data.chunks_processed` on success,
`data?.detail || 'Upload failed'` on an HTTP error, `'Upload failed'` on a
thrown error).  The second component counts network requests made. -/
def onUpload (response : FetchOutcome) (st : UploadState) :
    UploadState × ℕ :=
  match st.file with
  | none => (st, 0)
  | some _ =>
    match response with
    | .ok body =>
      ({ st with status := "Uploaded: " ++ (body.get "title").display
          ++ " (chunks: " ++ (body.get "chunks_processed").display ++ ")" },
        1)
    | .httpError body =>
      ({ st with status :=
          if (body.get "detail").truthy then (body.get "detail").display
          else "Upload failed" }, 1)
    | .networkFailure => ({ st with status := "Upload failed" }, 1)

/-- Modelled from the spec (§6): the upload collaborator returns either a
success object `{document_id, title, chunks_processed}` or a failure detail
string. -/
inductive UploadResponse
  | success (document_id title : String) (chunks_processed : ℕ)
  | failure (detail : String)

def encodeUploadResponse : UploadResponse → FetchOutcome
  | .success d t c =>
    .ok (.obj [("document_id", .str d), ("title", .str t),
      ("chunks_processed", .num (c : ℚ))])
  | .failure detail => .httpError (.obj [("detail", .str detail)])

/-- **C10.** In the upload component, when no file is selected `onUpload`
performs no network request and leaves the component state unchanged. -/
theorem onUpload_no_file (response : FetchOutcome) (st : UploadState)
    (h : st.file = none) : onUpload response st = (st, 0) := by
  simp [onUpload, h]

/-- Witness for C10 at the initial component state. -/
theorem onUpload_no_file_witness :
    (UploadState.mk none "").file = none
    ∧ onUpload FetchOutcome.networkFailure (UploadState.mk none "")
      = (UploadState.mk none "", 0) :=
  ⟨rfl, onUpload_no_file FetchOutcome.networkFailure (UploadState.mk none "")
    rfl⟩

/-- **C7.** The upload collaborator's response is a success object whose
fields are exactly `document_id`, `title`, `chunks_processed`, or a failure
object carrying the `detail` string; on success the upload UI's status reads
exactly `title` and `chunks_processed` (it is independent of
`document_id`), and on failure it shows the `detail` string. -/
theorem upload_response_contract (st : UploadState) (f : String)
    (hf : st.file = some f) (d t : String) (c : ℕ) (detail : String)
    (hdetail : detail ≠ "") :
    (∃ body, encodeUploadResponse (UploadResponse.success d t c)
        = FetchOutcome.ok body
      ∧ body.keys = ["document_id", "title", "chunks_processed"]
      ∧ (onUpload (FetchOutcome.ok body) st).1.status
        = "Uploaded: " ++ t ++ " (chunks: " ++ toString (c : ℚ) ++ ")"
      ∧ (onUpload (FetchOutcome.ok body) st).2 = 1)
    ∧ ∃ body, encodeUploadResponse (UploadResponse.failure detail)
        = FetchOutcome.httpError body
      ∧ body.keys = ["detail"]
      ∧ (onUpload (FetchOutcome.httpError body) st).1.status = detail
      ∧ (onUpload (FetchOutcome.httpError body) st).2 = 1 := by
  constructor
  · refine ⟨_, rfl, rfl, ?_, ?_⟩
    · simp [onUpload, hf, JVal.get, JVal.display, List.find?]
    · simp [onUpload, hf]
  · refine ⟨_, rfl, rfl, ?_, ?_⟩
    · simp [onUpload, hf, JVal.get, JVal.display, JVal.truthy, List.find?,
        hdetail]
    · simp [onUpload, hf]

/-- Witness for C7 at a concrete state, success payload and failure
detail. -/
theorem upload_response_contract_witness :
    ((UploadState.mk (some "paper.pdf") "").file = some "paper.pdf"
      ∧ "missing text layer" ≠ "")
    ∧ ((∃ body, encodeUploadResponse (UploadResponse.success "doc1" "Paper A" 6)
          = FetchOutcome.ok body
        ∧ body.keys = ["document_id", "title", "chunks_processed"]
        ∧ (onUpload (FetchOutcome.ok body)
            (UploadState.mk (some "paper.pdf") "")).1.status
          = "Uploaded: " ++ "Paper A" ++ " (chunks: "
              ++ toString ((6 : ℕ) : ℚ) ++ ")"
        ∧ (onUpload (FetchOutcome.ok body)
            (UploadState.mk (some "paper.pdf") "")).2 = 1)
      ∧ ∃ body, encodeUploadResponse
            (UploadResponse.failure "missing text layer")
          = FetchOutcome.httpError body
        ∧ body.keys = ["detail"]
        ∧ (onUpload (FetchOutcome.httpError body)
            (UploadState.mk (some "paper.pdf") "")).1.status
          = "missing text layer"
        ∧ (onUpload (FetchOutcome.httpError body)
            (UploadState.mk (some "paper.pdf") "")).2 = 1) :=
  ⟨⟨rfl, by decide⟩,
    upload_response_contract (UploadState.mk (some "paper.pdf") "")
      "paper.pdf" rfl "doc1" "Paper A" 6 "missing text layer" (by decide)⟩

/-! ### DocumentList.jsx -/

/-- Modelled from the spec (§6): an element of the listing collaborator's
`documents` list, sourced from Document records. -/
structure DocumentSummary where
  document_id : String
  title : String
  upload_date : String
  total_chunks : ℕ

def encodeDocumentSummary (doc : DocumentSummary) : JVal :=
  .obj [("document_id", .str doc.document_id), ("title", .str doc.title),
    ("upload_date", .str doc.upload_date),
    ("total_chunks", .num (doc.total_chunks : ℚ))]

/-- Modelled from the spec (§6): the listing collaborator's response
`{documents: [...]}`. -/
def encodeListResponse (docs : List DocumentSummary) : JVal :=
  .obj [("documents", .arr (docs.map encodeDocumentSummary))]

/-- From `DocumentList.jsx`: each document row is keyed by `d.document_id`
and shows `d.title` — formatted `d.upload_date` — chunks: `d.total_chunks`.
`new Date(x).toLocaleString()` is abstracted as the formatter `fmt`. -/
def renderDocRow (fmt : String → String) (j : JVal) : String × String :=
  ((j.get "document_id").display,
    (j.get "title").display ++ " — " ++ fmt ((j.get "upload_date").display)
      ++ " — chunks: " ++ (j.get "total_chunks").display)

/-- From `DocumentList.jsx`: `setDocs(data.documents || [])`, then one row
per document. -/
def renderDocumentList (fmt : String → String) (resp : JVal) :
    List (String × String) :=
  (if (resp.get "documents").truthy then jsArrItems (resp.get "documents")
    else []).map (renderDocRow fmt)

lemma renderDocRow_encode (fmt : String → String) (doc : DocumentSummary) :
    renderDocRow fmt (encodeDocumentSummary doc)
      = (doc.document_id,
          doc.title ++ " — " ++ fmt doc.upload_date ++ " — chunks: "
            ++ toString ((doc.total_chunks : ℕ) : ℚ)) := by
  simp [renderDocRow, encodeDocumentSummary, JVal.get, JVal.display,
    List.find?]

/-- **C8.** Every element of the listing collaborator's `documents` list has
exactly the fields `document_id`, `title`, `upload_date`, `total_chunks`,
and the document-list UI renders exactly these four fields for every listed
document: the row key is `document_id` and the row text is built from
`title`, the formatted `upload_date`, and `total_chunks`. -/
theorem document_list_contract (fmt : String → String)
    (docs : List DocumentSummary) :
    (∀ doc : DocumentSummary, (encodeDocumentSummary doc).keys
        = ["document_id", "title", "upload_date", "total_chunks"])
    ∧ (encodeListResponse docs).keys = ["documents"]
    ∧ renderDocumentList fmt (encodeListResponse docs)
      = docs.map fun doc =>
          (doc.document_id,
            doc.title ++ " — " ++ fmt doc.upload_date ++ " — chunks: "
              ++ toString ((doc.total_chunks : ℕ) : ℚ)) := by
  refine ⟨fun doc => rfl, rfl, ?_⟩
  have hdocs : (encodeListResponse docs).get "documents"
      = .arr (docs.map encodeDocumentSummary) := by
    simp [encodeListResponse, JVal.get, List.find?]
  simp only [renderDocumentList, hdocs, JVal.truthy, if_pos, jsArrItems,
    List.map_map]
  apply List.map_congr_left
  intro doc _
  exact renderDocRow_encode fmt doc

/-! ### ChatInterface.jsx -/

/-- From `ChatInterface.jsx`: the ask request body,
`JSON.stringify({question, user_id: 'web'})`. -/
def buildAskBody (question : String) : JVal :=
  .obj [("question", .str question), ("user_id", .str "web")]

/-- Modelled from the spec (§6): an element of the ask collaborator's
`sources` list. -/
structure AskSource where
  document_title : String
  chunk_text : String
  score : ℚ

/-- Modelled from the spec (§6): the ask collaborator's response
`{answer, sources}`. -/
structure AskResponse where
  answer : String
  sources : List AskSource

def encodeAskSource (s : AskSource) : JVal :=
  .obj [("document_title", .str s.document_title),
    ("chunk_text", .str s.chunk_text), ("score", .num s.score)]

def encodeAskResponse (r : AskResponse) : JVal :=
  .obj [("answer", .str r.answer),
    ("sources", .arr (r.sources.map encodeAskSource))]

/-- From `ChatInterface.jsx`: the displayed answer is
`data.answer || 'No answer'` and each source renders as
`[document_title] — chunk_text`. -/
def renderChat (resp : JVal) : String × List String :=
  (if (resp.get "answer").truthy then (resp.get "answer").display
    else "No answer",
    (if (resp.get "sources").truthy then jsArrItems (resp.get "sources")
      else []).map fun s =>
        "[" ++ (s.get "document_title").display ++ "] — "
          ++ (s.get "chunk_text").display)

lemma renderChatSource_encode (s : AskSource) :
    "[" ++ ((encodeAskSource s).get "document_title").display ++ "] — "
        ++ ((encodeAskSource s).get "chunk_text").display
      = "[" ++ s.document_title ++ "] — " ++ s.chunk_text := by
  simp [encodeAskSource, JVal.get, JVal.display, List.find?]

/-- **C9.** The ask request body has exactly the fields `question` and
`user_id`; the collaborator's response has exactly the fields `answer` and
`sources`, each source carrying exactly `document_title`, `chunk_text` and
`score`; and the chat UI displays the (non-empty) answer and, for every
source, its `document_title` and `chunk_text`. -/
theorem chat_interface_contract (question : String) (resp : AskResponse)
    (hanswer : resp.answer ≠ "") :
    (buildAskBody question).keys = ["question", "user_id"]
    ∧ (∀ s : AskSource, (encodeAskSource s).keys
        = ["document_title", "chunk_text", "score"])
    ∧ (encodeAskResponse resp).keys = ["answer", "sources"]
    ∧ renderChat (encodeAskResponse resp)
      = (resp.answer, resp.sources.map fun s =>
          "[" ++ s.document_title ++ "] — " ++ s.chunk_text) := by
  refine ⟨rfl, fun s => rfl, rfl, ?_⟩
  have hans : (encodeAskResponse resp).get "answer" = .str resp.answer := by
    simp [encodeAskResponse, JVal.get, List.find?]
  have hsrc : (encodeAskResponse resp).get "sources"
      = .arr (resp.sources.map encodeAskSource) := by
    simp [encodeAskResponse, JVal.get, List.find?]
  have hcond : (resp.answer == "") = false := beq_eq_false_iff_ne.mpr hanswer
  simp [renderChat, hans, hsrc, JVal.truthy, jsArrItems, hcond, List.map_map]
  exact ⟨rfl, fun a _ => renderChatSource_encode a⟩

/-- Witness for C9 at a concrete question and response. -/
theorem chat_interface_contract_witness :
    ((AskResponse.mk "Gradient descent."
        [AskSource.mk "Paper A" "uses gradient descent" 1]).answer ≠ "")
    ∧ ((buildAskBody "What optimization method is used?").keys
        = ["question", "user_id"]
      ∧ (∀ s : AskSource, (encodeAskSource s).keys
          = ["document_title", "chunk_text", "score"])
      ∧ (encodeAskResponse (AskResponse.mk "Gradient descent."
          [AskSource.mk "Paper A" "uses gradient descent" 1])).keys
        = ["answer", "sources"]
      ∧ renderChat (encodeAskResponse (AskResponse.mk "Gradient descent."
          [AskSource.mk "Paper A" "uses gradient descent" 1]))
        = ("Gradient descent.",
            [AskSource.mk "Paper A" "uses gradient descent" 1].map fun s =>
              "[" ++ s.document_title ++ "] — " ++ s.chunk_text)) :=
  ⟨by decide,
    chat_interface_contract "What optimization method is used?"
      (AskResponse.mk "Gradient descent."
        [AskSource.mk "Paper A" "uses gradient descent" 1]) (by decide)⟩

end TahaAI
